import Mathlib

/-!
Verification of the PriFi DC-net cryptographic core.

Shallow embedding of the Go sources:
* `prifi-lib/dcnet/equivocation.go` — equivocation protection (history scalar,
  client/trustee contributions, relay decoding),
* `trustee/trusteeServer.go` — trustee connection handler (version check,
  shuffle reply),
* `sda/services/service.go` — roster description parsing and identity mapping.

Group scalars (kyber `Scalar` over a prime-order Schnorr group, cf.
`crypto/qrsuite.go`) are modelled as `ZMod q`; byte strings as `List ℕ`;
the kyber `mod.Int` encoding (big-endian, fixed width `(BitLen(q)+7)/8`)
is modelled concretely.  The Go standard-library AES-GCM AEAD and SHA-256
are external collaborators and enter as explicit parameters.
-/

namespace PriFi

/-- Big-endian interpretation of a byte string as a natural number
(Go `binary.BigEndian` / kyber `mod.Int.SetBytes`). -/
def bytesToNat (l : List ℕ) : ℕ :=
  l.foldl (fun acc b => acc * 256 + b) 0

/-- Big-endian encoding of `n` into exactly `w` bytes (kyber `mod.Int.MarshalBinary`
pads to the fixed marshal size). -/
def natToBytes : ℕ → ℕ → List ℕ
  | 0, _ => []
  | w + 1, n => natToBytes w (n / 256) ++ [n % 256]

/-- Fixed marshal width of a scalar mod `q`: `(BitLen(q)+7)/8` bytes
(kyber `mod.Int.MarshalSize`). -/
def scalarWidth (q : ℕ) : ℕ :=
  (Nat.log 2 q + 8) / 8

/-- kyber `Scalar().SetBytes data`: big-endian bytes reduced mod the group order. -/
def setBytes (q : ℕ) (data : List ℕ) : ZMod q :=
  (bytesToNat data : ZMod q)

/-- kyber `Scalar.MarshalBinary`: fixed-width big-endian encoding of the value. -/
def marshalBinary (q : ℕ) (s : ZMod q) : List ℕ :=
  natToBytes (scalarWidth q) s.val

theorem bytesToNat_append_singleton (xs : List ℕ) (b : ℕ) :
    bytesToNat (xs ++ [b]) = bytesToNat xs * 256 + b := by
  simp [bytesToNat, List.foldl_append]

theorem natToBytes_length (w n : ℕ) : (natToBytes w n).length = w := by
  induction w generalizing n with
  | zero => rfl
  | succ w ih => simp [natToBytes, ih]

theorem mod_mul_256 (n a : ℕ) :
    n / 256 % a * 256 + n % 256 = n % (a * 256) := by
  conv_rhs => rw [← Nat.div_add_mod (n % (a * 256)) 256]
  rw [Nat.mod_mod_of_dvd n (dvd_mul_left 256 a)]
  rw [mul_comm a 256, Nat.mod_mul_right_div_self]
  ring

theorem bytesToNat_natToBytes (w n : ℕ) :
    bytesToNat (natToBytes w n) = n % 256 ^ w := by
  induction w generalizing n with
  | zero => simp [natToBytes, bytesToNat, Nat.mod_one]
  | succ w ih =>
    rw [natToBytes, bytesToNat_append_singleton, ih]
    rw [pow_succ]
    exact mod_mul_256 n (256 ^ w)

theorem scalarWidth_pos (q : ℕ) : 0 < scalarWidth q := by
  have : 8 ≤ Nat.log 2 q + 8 := by omega
  exact Nat.div_pos this (by norm_num)

theorem lt_pow_scalarWidth (q : ℕ) (n : ℕ) (h : n < q) : n < 256 ^ scalarWidth q := by
  have h1 : q < 2 ^ (Nat.log 2 q + 1) := Nat.lt_pow_succ_log_self (by norm_num) q
  have h2 : Nat.log 2 q + 1 ≤ 8 * scalarWidth q := by
    unfold scalarWidth
    have := Nat.div_add_mod (Nat.log 2 q + 8) 8
    omega
  calc n < q := h
    _ < 2 ^ (Nat.log 2 q + 1) := h1
    _ ≤ 2 ^ (8 * scalarWidth q) := Nat.pow_le_pow_right (by norm_num) h2
    _ = 256 ^ scalarWidth q := by rw [pow_mul]; norm_num

/-- Round trip: unmarshalling a marshalled scalar recovers the scalar. -/
theorem setBytes_marshalBinary (q : ℕ) [NeZero q] (s : ZMod q) :
    setBytes q (marshalBinary q s) = s := by
  unfold setBytes marshalBinary
  rw [bytesToNat_natToBytes]
  have hval : s.val < q := ZMod.val_lt s
  rw [Nat.mod_eq_of_lt (lt_pow_scalarWidth q s.val hval)]
  exact ZMod.natCast_rightInverse s

theorem marshalBinary_length (q : ℕ) (s : ZMod q) :
    (marshalBinary q s).length = scalarWidth q := by
  unfold marshalBinary
  exact natToBytes_length _ _

theorem marshalBinary_ne_nil (q : ℕ) (s : ZMod q) :
    (marshalBinary q s).length ≠ 0 := by
  rw [marshalBinary_length]
  have := scalarWidth_pos q
  omega

/-- The Go standard-library authenticated cipher interface (`crypto/cipher.AEAD`,
instantiated with AES-GCM in `equivocation.go`): `aeSeal key nonce plaintext`
produces a ciphertext (plaintext plus 16-byte tag for GCM), `aeOpen key nonce
ciphertext` authenticates and decrypts, returning `none` on failure (Go's
`Open` returning an error).  It is an external collaborator, so it enters
the embedding as an explicit parameter. -/
structure AEAD where
  aeSeal : List ℕ → List ℕ → List ℕ → List ℕ
  aeOpen : List ℕ → List ℕ → List ℕ → Option (List ℕ)

/-- `EquivocationProtection` (equivocation.go:28-32).  The kyber XOF used to
draw fresh scalars is modelled as a scalar stream `randomness` with a read
counter `randCtr`. -/
structure EquivocationProtection (q : ℕ) where
  history : ZMod q
  randomness : ℕ → ZMod q
  randCtr : ℕ

/-- `NewEquivocation` (equivocation.go:35-45): the history scalar starts at
`Scalar().One()`; the XOF is freshly keyed (here: the given stream). -/
def NewEquivocation (q : ℕ) (stream : ℕ → ZMod q) : EquivocationProtection q :=
  { history := 1, randomness := stream, randCtr := 0 }

/-- `randomScalar` (equivocation.go:47-49): pick a fresh scalar from the XOF. -/
def randomScalar (q : ℕ) (e : EquivocationProtection q) :
    ZMod q × EquivocationProtection q :=
  (e.randomness e.randCtr, { e with randCtr := e.randCtr + 1 })

/-- `hashInGroup` (equivocation.go:51-53): `Scalar().SetBytes(data)`. -/
def hashInGroup (q : ℕ) (data : List ℕ) : ZMod q :=
  setBytes q data

/-- `UpdateHistory` (equivocation.go:56-64).  `sha` models `crypto/sha256`.
Note the source allocates `toBeHashed := make([]byte, len(historyB)+len(data))`
and never copies `historyB` or `data` into it, so the hashed buffer is all
zeroes. -/
def UpdateHistory (q : ℕ) (sha : List ℕ → List ℕ)
    (e : EquivocationProtection q) (data : List ℕ) : EquivocationProtection q :=
  let historyB := marshalBinary q e.history
  let toBeHashed := List.replicate (historyB.length + data.length) 0
  let newPayload := sha toBeHashed
  { e with history := setBytes q newPayload }

/-- `ClientEncryptPayload` (equivocation.go:67-124).  Returns
`((payload, kappa_bytes), new state)`; the state changes only through the
XOF read in the slot-owner branch. -/
def ClientEncryptPayload (q : ℕ) (A : AEAD) (e : EquivocationProtection q)
    (slotOwner : Bool) (x : List ℕ) (p_j : List (List ℕ)) :
    (List ℕ × List ℕ) × EquivocationProtection q :=
  let q_j := p_j.map (hashInGroup q)
  let sum := q_j.foldl (· + ·) (0 : ZMod q)
  let product := sum * e.history
  if !slotOwner then
    let kappa_i := product
    ((x, marshalBinary q kappa_i), e)
  else
    let ke := randomScalar q e
    let k_i := ke.1
    let k_i_bytes := marshalBinary q k_i
    let nonce : List ℕ := List.replicate 12 0
    let x2 := A.aeSeal k_i_bytes nonce x
    let kappa_i := k_i + product
    ((x2, marshalBinary q kappa_i), ke.2)

/-- `TrusteeGetContribution` (equivocation.go:133-154): marshal of the scalar
sum of the hashed pads; the state is untouched. -/
def TrusteeGetContribution (q : ℕ) (e : EquivocationProtection q)
    (s_i : List (List ℕ)) : List ℕ × EquivocationProtection q :=
  let q_i := s_i.map (hashInGroup q)
  let sum := q_i.foldl (· + ·) (0 : ZMod q)
  (marshalBinary q sum, e)

/-- The key scalar the relay reconstructs (equivocation.go:166-189):
`k = Σ_i κ_i − h · Σ_j σ_j` after unmarshalling every contribution. -/
def relayKey (q : ℕ) (e : EquivocationProtection q)
    (trusteesContributions clientsContributions : List (List ℕ)) : ZMod q :=
  let trustee_kappa_j := trusteesContributions.map (setBytes q)
  let client_kappa_i := clientsContributions.map (setBytes q)
  let sumTrustees := trustee_kappa_j.foldl (· + ·) (0 : ZMod q)
  let sumClients := client_kappa_i.foldl (· + ·) (0 : ZMod q)
  let prod := sumTrustees * e.history
  sumClients - prod

/-- `RelayDecode` (equivocation.go:163-234).  On AES-GCM failure the source
has `//TODO: DISRUPTION` and returns a zero-filled buffer of length
`len(encryptedPayload)-16`; no disruption flag exists in the return value. -/
def RelayDecode (q : ℕ) (A : AEAD) (e : EquivocationProtection q)
    (encryptedPayload : List ℕ)
    (trusteesContributions clientsContributions : List (List ℕ)) :
    List ℕ × EquivocationProtection q :=
  let k_i := relayKey q e trusteesContributions clientsContributions
  let k_bytes := marshalBinary q k_i
  if k_bytes.length = 0 then
    ([], e)
  else
    let nonce : List ℕ := List.replicate 12 0
    match A.aeOpen k_bytes nonce encryptedPayload with
    | some message => (message, e)
    | none => (List.replicate (encryptedPayload.length - 16) 0, e)

/-- Folding `(· + ·)` from `a` sums the list onto `a`. -/
theorem foldl_add_eq (q : ℕ) (l : List (ZMod q)) (a : ZMod q) :
    l.foldl (· + ·) a = a + l.sum := by
  induction l generalizing a with
  | nil => simp
  | cons x xs ih => simp [ih (a + x), add_assoc]

/-- Folding `(· + ·)` over the values of `f` on `Fin n` is the `Finset` sum. -/
theorem foldl_add_map_finRange (q n : ℕ) (f : Fin n → ZMod q) :
    ((List.finRange n).map f).foldl (· + ·) (0 : ZMod q) = ∑ i, f i := by
  rw [foldl_add_eq, zero_add, Fin.sum_univ_def]

/-- `binary.BigEndian.Uint32(buffer[off:off+4])` (trusteeServer.go:110-121). -/
def u32BE (buffer : List ℕ) (off : ℕ) : ℕ :=
  bytesToNat ((buffer.drop off).take 4)

/-- The session parameters `handleConnection` extracts from the first frame
and feeds to `initiateTrusteeState` / `TellPublicKey` (trusteeServer.go:117-127). -/
structure TrusteeSetupParams where
  cellSize : ℕ
  nClients : ℕ
  nTrustees : ℕ
  trusteeId : ℕ
  deriving DecidableEq

/-- First-frame handling of `handleConnection` (trusteeServer.go:96-127): read
the big-endian `u32` protocol version from `buffer[0:4]`; on mismatch with the
server's `config.LLD_PROTOCOL_VERSION` the handler returns (the deferred
`conn.Close()` fires) before any key exchange; otherwise the remaining
parameters are extracted and setup proceeds. -/
def handleConnectionFirstFrame (serverVersion : ℕ) (buffer : List ℕ) :
    Option TrusteeSetupParams :=
  let version := u32BE buffer 0
  if version ≠ serverVersion then
    none
  else
    some { cellSize := u32BE buffer 4, nClients := u32BE buffer 8,
           nTrustees := u32BE buffer 12, trusteeId := u32BE buffer 16 }

/-- The "shuffle" a trustee performs on a request `(base, keys)`
(trusteeServer.go:190-192): `base2 := base`, `ephPublicKeys2 := ephPublicKeys`,
`proof := make([]byte, 50)` — the reply is the unchanged base, the unchanged
key list, and 50 zero bytes as the proof. -/
def trusteeShuffle {α : Type} (base : α) (ephPublicKeys : List α) :
    α × List α × List ℕ :=
  (base, ephPublicKeys, List.replicate 50 0)

/-- `prifi.PriFiRole` (service.go / sda protocols). -/
inductive PriFiRole where
  | Relay
  | Client
  | Trustee
  deriving DecidableEq

/-- `prifi.PriFiIdentity`: a role together with an integer id. -/
structure PriFiIdentity where
  role : PriFiRole
  id : Int
  deriving DecidableEq

/-- Go `strings.Split(s, " ")`: split at every single space; always returns at
least one (possibly empty) piece. -/
def splitOnSpace : List Char → List (List Char)
  | [] => [[]]
  | c :: rest =>
    match splitOnSpace rest with
    | [] => [[]]
    | h :: t => if c = ' ' then [] :: h :: t else (c :: h) :: t

/-- Decimal value of a digit string (most significant first). -/
def digitsVal (s : List Char) : ℕ :=
  s.foldl (fun acc c => acc * 10 + (c.toNat - 48)) 0

/-- Go `strconv.Atoi` (= `ParseInt(s, 10, 0)` on a 64-bit platform): an
optional leading sign, then at least one decimal digit, value within the
64-bit `int` range; anything else is an error. -/
def goAtoi (s : List Char) : Option Int :=
  match s with
  | [] => none
  | c :: rest =>
    let digits := if c = '-' ∨ c = '+' then rest else s
    let negSign := c = '-'
    if digits = [] then none
    else if ¬ (digits.all Char.isDigit) then none
    else
      let v : ℕ := digitsVal digits
      if negSign then
        if v ≤ 2 ^ 63 then some (-(v : Int)) else none
      else
        if v ≤ 2 ^ 63 - 1 then some (v : Int) else none

def relayWord : List Char := ['r', 'e', 'l', 'a', 'y']

def clientWord : List Char := ['c', 'l', 'i', 'e', 'n', 't']

def trusteeWord : List Char := ['t', 'r', 'u', 's', 't', 'e', 'e']

/-- `parseDescription` (service.go:180-207): `"relay"` alone maps to
`(Relay, 0)`; a two-token description is `Atoi`-parsed and mapped to `Client`
or `Trustee` by its first token; everything else is an error (`none`). -/
def parseDescription (description : List Char) : Option PriFiIdentity :=
  match splitOnSpace description with
  | [d0] =>
    if d0 = relayWord then some { role := PriFiRole.Relay, id := 0 } else none
  | [d0, d1] =>
    match goAtoi d1 with
    | none => none
    | some i =>
      if d0 = clientWord then some { role := PriFiRole.Client, id := i }
      else if d0 = trusteeWord then some { role := PriFiRole.Trustee, id := i }
      else none
  | _ => none

/-- A roster entry: a server identity (address) with its description string
(`group.Roster.List` together with `group.GetDescription`). -/
structure GroupNode where
  address : ℕ
  description : List Char

/-- Go map insertion `m[si.Address] = *id`: overwrite an existing key, else
append. -/
def insertAssoc (m : List (ℕ × PriFiIdentity)) (a : ℕ) (v : PriFiIdentity) :
    List (ℕ × PriFiIdentity) :=
  if m.any (fun p => p.1 = a) then
    m.map (fun p => if p.1 = a then (a, v) else p)
  else
    m ++ [(a, v)]

/-- The loop of `mapIdentities` (service.go:217-229): parse every node
description, skipping failures, building the address→identity map and
remembering the last relay's identity. -/
def buildIdentityMap (nodes : List GroupNode) :
    List (ℕ × PriFiIdentity) × Option ℕ :=
  nodes.foldl
    (fun acc node =>
      match parseDescription node.description with
      | none => acc
      | some id =>
        (insertAssoc acc.1 node.address id,
         if id.role = PriFiRole.Relay then some node.address else acc.2))
    ([], none)

/-- Count the map values holding a given role (service.go:232-243). -/
def countRole (m : List (ℕ × PriFiIdentity)) (role : PriFiRole) : ℕ :=
  (m.filter (fun p => p.2.role = role)).length

/-- `mapIdentities` (service.go:212-250): build the identity map, count the
roles, and `log.Fatal` (modelled as `none`) unless there is exactly one relay
and at least one client and one trustee. -/
def mapIdentities (nodes : List GroupNode) :
    Option (List (ℕ × PriFiIdentity) × Option ℕ) :=
  let mr := buildIdentityMap nodes
  let t := countRole mr.1 PriFiRole.Trustee
  let c := countRole mr.1 PriFiRole.Client
  let r := countRole mr.1 PriFiRole.Relay
  if t > 0 ∧ c > 0 ∧ r = 1 then some mr else none

theorem splitOnSpace_ne_nil (s : List Char) : splitOnSpace s ≠ [] := by
  cases s with
  | nil => simp [splitOnSpace]
  | cons c rest =>
    simp only [splitOnSpace]
    cases h : splitOnSpace rest with
    | nil => simp
    | cons hd tl => by_cases hc : c = ' ' <;> simp [hc]

theorem splitOnSpace_no_space (a : List Char) (h : ' ' ∉ a) :
    splitOnSpace a = [a] := by
  induction a with
  | nil => rfl
  | cons c a ih =>
    simp only [List.mem_cons, not_or] at h
    have hc : ¬ (c = ' ') := fun hc => h.1 hc.symm
    simp only [splitOnSpace, ih h.2]
    simp [hc]

theorem splitOnSpace_append (a b : List Char) (h : ' ' ∉ a) :
    splitOnSpace (a ++ ' ' :: b) = a :: splitOnSpace b := by
  induction a with
  | nil =>
    simp only [List.nil_append, splitOnSpace]
    cases hb : splitOnSpace b with
    | nil => exact absurd hb (splitOnSpace_ne_nil b)
    | cons hd tl => simp
  | cons c a ih =>
    simp only [List.mem_cons, not_or] at h
    have hc : ¬ (c = ' ') := fun hc => h.1 hc.symm
    rw [List.cons_append]
    simp only [splitOnSpace]
    rw [ih h.2]
    simp [hc]

theorem splitOnSpace_eq_singleton (s a : List Char)
    (h : splitOnSpace s = [a]) : s = a ∧ ' ' ∉ a := by
  induction s generalizing a with
  | nil =>
    simp only [splitOnSpace] at h
    simp only [List.cons.injEq] at h
    rw [← h.1]
    simp
  | cons c rest ih =>
    simp only [splitOnSpace] at h
    cases hr : splitOnSpace rest with
    | nil => exact absurd hr (splitOnSpace_ne_nil rest)
    | cons hd tl =>
      rw [hr] at h
      by_cases hc : c = ' '
      · simp [hc] at h
      · simp only [if_neg hc, List.cons.injEq] at h
        obtain ⟨ha, htl⟩ := h
        subst htl
        obtain ⟨hrest, hns⟩ := ih hd hr
        subst hrest
        refine ⟨ha ▸ rfl, ?_⟩
        rw [← ha]
        simp only [List.mem_cons, not_or]
        exact ⟨fun hsc => hc hsc.symm, hns⟩

theorem splitOnSpace_eq_pair (s a b : List Char)
    (h : splitOnSpace s = [a, b]) :
    s = a ++ ' ' :: b ∧ ' ' ∉ a ∧ ' ' ∉ b := by
  induction s generalizing a with
  | nil =>
    simp only [splitOnSpace] at h
    simp at h
  | cons c rest ih =>
    simp only [splitOnSpace] at h
    cases hr : splitOnSpace rest with
    | nil => exact absurd hr (splitOnSpace_ne_nil rest)
    | cons hd tl =>
      rw [hr] at h
      by_cases hc : c = ' '
      · simp only [if_pos hc, List.cons.injEq] at h
        obtain ⟨ha, hhd, htl⟩ := h
        have hsing : splitOnSpace rest = [b] := by rw [hr, hhd, htl]
        obtain ⟨hrest, hnb⟩ := splitOnSpace_eq_singleton rest b hsing
        subst hrest
        refine ⟨?_, ?_, hnb⟩
        · rw [← ha, hc]; rfl
        · rw [← ha]; simp
      · simp only [if_neg hc, List.cons.injEq] at h
        obtain ⟨ha, htl⟩ := h
        have hpair : splitOnSpace rest = [hd, b] := by
          rw [hr, htl]
        obtain ⟨hrest, hnhd, hnb⟩ := ih hd hpair
        refine ⟨?_, ?_, hnb⟩
        · rw [← ha, hrest]; rfl
        · rw [← ha]
          simp only [List.mem_cons, not_or]
          exact ⟨fun hsc => hc hsc.symm, hnhd⟩

/-- Unmarshalling a list of marshalled scalars recovers the scalars. -/
theorem map_setBytes_marshal {α : Type} (q : ℕ) [NeZero q] (f : α → ZMod q)
    (l : List α) :
    (l.map (fun a => marshalBinary q (f a))).map (setBytes q) = l.map f := by
  rw [List.map_map]
  simp [Function.comp_def, setBytes_marshalBinary]

/-- The algebra of an honest equivocation round: the slot owner's fresh key is
exactly what `Σ_i κ_i − (Σ_j σ_j)·h` reconstructs when client and trustee pads
agree pairwise. -/
theorem honest_key_algebra (q : ℕ) (nC nT : ℕ) (H : Fin nC → Fin nT → ZMod q)
    (hist k : ZMod q) (owner : Fin nC) :
    (∑ i, if i = owner then k + (∑ j, H owner j) * hist else (∑ j, H i j) * hist)
      - (∑ j, ∑ i, H i j) * hist = k := by
  have hsplit : ∀ i : Fin nC,
      (if i = owner then k + (∑ j, H owner j) * hist else (∑ j, H i j) * hist)
        = (if i = owner then k else 0) + (∑ j, H i j) * hist := by
    intro i
    by_cases hi : i = owner
    · subst hi; simp
    · simp [hi]
  simp only [hsplit]
  rw [Finset.sum_add_distrib]
  rw [Finset.sum_ite_eq' Finset.univ owner (fun _ => k)]
  simp only [Finset.mem_univ, if_pos]
  rw [← Finset.sum_mul, Finset.sum_comm]
  ring

/-- A trivial concrete state used to instantiate hypotheses concretely. -/
def zeroState (q : ℕ) : EquivocationProtection q :=
  { history := 1, randomness := fun _ => 0, randCtr := 0 }

/-- A concrete AEAD satisfying the round-trip contract. -/
def idAEAD : AEAD :=
  { aeSeal := fun _ _ m => m, aeOpen := fun _ _ c => some c }

/-- A concrete AEAD whose authentication always fails. -/
def failAEAD : AEAD :=
  { aeSeal := fun _ _ m => m ++ List.replicate 16 0, aeOpen := fun _ _ _ => none }

/-- C7: a freshly created equivocation state (`NewEquivocation`) has its
history scalar equal to the group's multiplicative-identity scalar, so at
round 0 the history equals the identity scalar. -/
theorem NewEquivocation_history_is_one (q : ℕ) (stream : ℕ → ZMod q) :
    (NewEquivocation q stream).history = 1 := rfl

/-- C2 (code evaluation): `UpdateHistory` hashes a freshly allocated
zero-filled buffer of length `len(historyB)+len(data)` — neither the current
history bytes nor `data` are ever copied in — so the new history is
`SetBytes(H(0^(width+|data|)))`, depending on `data` only through its length,
contradicting the specified `h ← H(h ∥ data)`. -/
theorem UpdateHistory_hashes_zero_buffer (q : ℕ) (sha : List ℕ → List ℕ)
    (e : EquivocationProtection q) (data : List ℕ) :
    UpdateHistory q sha e data =
      { e with history :=
          setBytes q (sha (List.replicate (scalarWidth q + data.length) 0)) } := by
  simp [UpdateHistory, marshalBinary_length]

/-- C4 (code evaluation): the trustee's reply to a shuffle request is the
unchanged base, the unchanged ephemeral keys in their original order, and 50
zero bytes in place of a proof — no random exponent, no permutation, no
re-encryption, no zero-knowledge proof. -/
theorem trusteeShuffle_is_identity_with_zero_proof {α : Type} (base : α)
    (ephPublicKeys : List α) :
    trusteeShuffle base ephPublicKeys =
      (base, ephPublicKeys, List.replicate 50 0) := rfl

/-- C6: if the leading big-endian u32 of the first frame differs from the
handler's protocol version, the trustee connection handler stops (the
connection is closed by the deferred `Close`) without extracting parameters or
performing any key exchange. -/
theorem handleConnection_version_mismatch (serverVersion : ℕ)
    (buffer : List ℕ) (h : u32BE buffer 0 ≠ serverVersion) :
    handleConnectionFirstFrame serverVersion buffer = none := by
  simp [handleConnectionFirstFrame, h]

theorem handleConnection_version_mismatch_witness :
    u32BE [0, 0, 0, 0, 0, 0, 0, 1] 0 ≠ 1 ∧
      handleConnectionFirstFrame 1 [0, 0, 0, 0, 0, 0, 0, 1] = none :=
  ⟨by decide, handleConnection_version_mismatch 1 [0, 0, 0, 0, 0, 0, 0, 1]
    (by decide)⟩

/-- C9: `ClientEncryptPayload`, `TrusteeGetContribution` and `RelayDecode`
leave the history scalar unchanged, for every state and all inputs; only
`UpdateHistory` writes the history field. -/
theorem history_preserved_by_round_operations (q : ℕ) (A : AEAD)
    (e : EquivocationProtection q) (slotOwner : Bool) (x : List ℕ)
    (p_j s_i : List (List ℕ)) (payload : List ℕ)
    (ts cs : List (List ℕ)) :
    (ClientEncryptPayload q A e slotOwner x p_j).2.history = e.history ∧
    (TrusteeGetContribution q e s_i).2.history = e.history ∧
    (RelayDecode q A e payload ts cs).2.history = e.history := by
  refine ⟨?_, rfl, ?_⟩
  · cases slotOwner <;> rfl
  · simp only [RelayDecode]
    split
    · rfl
    · split <;> rfl

/-- C3: in the non-slot-owner case `ClientEncryptPayload` returns the payload
unchanged together with the marshalled bytes of `κ_i = h · σ_i`, where
`σ_i = Σ_j H_group(p_j)`. -/
theorem ClientEncryptPayload_nonowner (q : ℕ) (A : AEAD)
    (e : EquivocationProtection q) (x : List ℕ) (nT : ℕ)
    (pads : Fin nT → List ℕ) :
    ClientEncryptPayload q A e false x ((List.finRange nT).map pads) =
      ((x, marshalBinary q (e.history * ∑ j, hashInGroup q (pads j))), e) := by
  simp only [ClientEncryptPayload, Bool.not_false, if_pos, List.map_map]
  rw [show (hashInGroup q ∘ pads) = fun j => hashInGroup q (pads j) from rfl]
  rw [foldl_add_map_finRange]
  rw [mul_comm]

/-- C5 (code evaluation): when the AES-GCM authentication check fails,
`RelayDecode` returns a zero-filled buffer of length
`len(encryptedPayload) − 16` as the round's data; the return value carries no
disruption flag (the source has only a `//TODO: DISRUPTION` comment). -/
theorem RelayDecode_gcm_failure (q : ℕ) (A : AEAD)
    (e : EquivocationProtection q) (payload : List ℕ)
    (ts cs : List (List ℕ))
    (hfail : A.aeOpen (marshalBinary q (relayKey q e ts cs))
        (List.replicate 12 0) payload = none) :
    (RelayDecode q A e payload ts cs).1 =
      List.replicate (payload.length - 16) 0 := by
  simp only [RelayDecode]
  rw [if_neg (marshalBinary_ne_nil q (relayKey q e ts cs))]
  rw [hfail]

theorem RelayDecode_gcm_failure_witness :
    failAEAD.aeOpen (marshalBinary 3 (relayKey 3 (zeroState 3) [] []))
        (List.replicate 12 0) (List.replicate 20 7) = none ∧
      (RelayDecode 3 failAEAD (zeroState 3) (List.replicate 20 7) [] []).1 =
        List.replicate ((List.replicate 20 (7 : ℕ)).length - 16) 0 :=
  ⟨rfl, RelayDecode_gcm_failure 3 failAEAD (zeroState 3)
    (List.replicate 20 7) [] [] rfl⟩

/-- C8: `mapIdentities` succeeds (rather than `log.Fatal`) exactly when the
parsed role assignment contains exactly one relay, at least one client and at
least one trustee. -/
theorem mapIdentities_succeeds_iff (nodes : List GroupNode) :
    (mapIdentities nodes).isSome ↔
      (countRole (buildIdentityMap nodes).1 PriFiRole.Relay = 1 ∧
       1 ≤ countRole (buildIdentityMap nodes).1 PriFiRole.Client ∧
       1 ≤ countRole (buildIdentityMap nodes).1 PriFiRole.Trustee) := by
  simp only [mapIdentities]
  split <;> rename_i hcond
  · simp only [Option.isSome_some, true_iff]
    omega
  · simp only [Option.isSome_none, Bool.false_eq_true, false_iff]
    omega

/-- C10: `parseDescription` accepts exactly `"relay"` (mapped to role `Relay`
with id 0), `"client <integer>"` and `"trustee <integer>"`; every other
description — including `"relay 0"` — returns an error and no identity. -/
theorem parseDescription_accepts_exactly :
    (∀ s, (parseDescription s).isSome ↔
        (s = relayWord ∨
          ∃ d, ' ' ∉ d ∧ (goAtoi d).isSome ∧
            (s = clientWord ++ ' ' :: d ∨ s = trusteeWord ++ ' ' :: d))) ∧
    parseDescription relayWord = some { role := PriFiRole.Relay, id := 0 } ∧
    parseDescription (relayWord ++ [' ', '0']) = none := by
  refine ⟨?_, rfl, rfl⟩
  intro s
  constructor
  · intro h
    cases hs : splitOnSpace s with
    | nil => exact absurd hs (splitOnSpace_ne_nil s)
    | cons d0 rest =>
      cases rest with
      | nil =>
        simp only [parseDescription, hs] at h
        by_cases hd : d0 = relayWord
        · obtain ⟨hs0, _⟩ := splitOnSpace_eq_singleton s d0 hs
          exact Or.inl (by rw [hs0, hd])
        · rw [if_neg hd] at h
          simp at h
      | cons d1 rest2 =>
        cases rest2 with
        | nil =>
          simp only [parseDescription, hs] at h
          cases hg : goAtoi d1 with
          | none => rw [hg] at h; simp at h
          | some i =>
            rw [hg] at h
            obtain ⟨hseq, hnd0, hnd1⟩ := splitOnSpace_eq_pair s d0 d1 hs
            refine Or.inr ⟨d1, hnd1, by rw [hg]; rfl, ?_⟩
            by_cases hc : d0 = clientWord
            · exact Or.inl (by rw [hseq, hc])
            · by_cases ht : d0 = trusteeWord
              · exact Or.inr (by rw [hseq, ht])
              · simp [hc, ht] at h
        | cons d2 rest3 =>
          simp only [parseDescription, hs] at h
          simp at h
  · intro h
    rcases h with hrel | ⟨d, hnd, hga, hcase⟩
    · rw [hrel]
      rfl
    · obtain ⟨i, hgi⟩ := Option.isSome_iff_exists.mp hga
      rcases hcase with hcs | hts
      · rw [hcs]
        have hsplit : splitOnSpace (clientWord ++ ' ' :: d) = [clientWord, d] := by
          rw [splitOnSpace_append clientWord d (by decide),
            splitOnSpace_no_space d hnd]
        simp [parseDescription, hsplit, hgi]
      · rw [hts]
        have hsplit : splitOnSpace (trusteeWord ++ ' ' :: d) = [trusteeWord, d] := by
          rw [splitOnSpace_append trusteeWord d (by decide),
            splitOnSpace_no_space d hnd]
        simp [parseDescription, hsplit, hgi,
          show trusteeWord ≠ clientWord by decide]

/-- C1: honest-round correctness of the equivocation guard.  With all parties
sharing one state (history `h`): the slot owner produces `(x', κ_owner)` from
`ClientEncryptPayload(true, x, row owner)`, every other client `i` contributes
`κ_i = h·σ_i` from `ClientEncryptPayload(false, ·, row i)`, and every trustee
`j` contributes `σ_j` from `TrusteeGetContribution` on the matching pads
(column `j`); then `RelayDecode(x', {σ_j}, {κ_i})` returns the original
payload `x`, provided the AEAD satisfies the standard round-trip contract. -/
theorem RelayDecode_honest_round (q : ℕ) [NeZero q] (A : AEAD)
    (hA : ∀ k n m, A.aeOpen k n (A.aeSeal k n m) = some m)
    (e : EquivocationProtection q) (nC nT : ℕ)
    (pads : Fin nC → Fin nT → List ℕ) (owner : Fin nC)
    (x : List ℕ) (xs : Fin nC → List ℕ) :
    (RelayDecode q A e
      (ClientEncryptPayload q A e true x
        ((List.finRange nT).map (fun j => pads owner j))).1.1
      ((List.finRange nT).map (fun j =>
        (TrusteeGetContribution q e
          ((List.finRange nC).map (fun i => pads i j))).1))
      ((List.finRange nC).map (fun i =>
        if i = owner then
          (ClientEncryptPayload q A e true x
            ((List.finRange nT).map (fun j => pads owner j))).1.2
        else
          (ClientEncryptPayload q A e false (xs i)
            ((List.finRange nT).map (fun j => pads i j))).1.2))).1 = x := by
  have hrow : ∀ i : Fin nC,
      ((List.finRange nT).map
        (hashInGroup q ∘ fun j => pads i j)).foldl (· + ·) (0 : ZMod q)
        = ∑ j, hashInGroup q (pads i j) := by
    intro i
    exact foldl_add_map_finRange q nT (hashInGroup q ∘ fun j => pads i j)
  have hcol : ∀ j : Fin nT,
      ((List.finRange nC).map
        (hashInGroup q ∘ fun i => pads i j)).foldl (· + ·) (0 : ZMod q)
        = ∑ i, hashInGroup q (pads i j) := by
    intro j
    exact foldl_add_map_finRange q nC (hashInGroup q ∘ fun i => pads i j)
  have hOwner1 : (ClientEncryptPayload q A e true x
      ((List.finRange nT).map (fun j => pads owner j))).1.1
      = A.aeSeal (marshalBinary q (e.randomness e.randCtr))
          (List.replicate 12 0) x := by
    simp [ClientEncryptPayload, randomScalar]
  have hOwner2 : (ClientEncryptPayload q A e true x
      ((List.finRange nT).map (fun j => pads owner j))).1.2
      = marshalBinary q (e.randomness e.randCtr
          + (∑ j, hashInGroup q (pads owner j)) * e.history) := by
    simp [ClientEncryptPayload, randomScalar]
    rw [hrow owner]
  have hNon : ∀ i : Fin nC,
      (ClientEncryptPayload q A e false (xs i)
        ((List.finRange nT).map (fun j => pads i j))).1.2
        = marshalBinary q ((∑ j, hashInGroup q (pads i j)) * e.history) := by
    intro i
    simp [ClientEncryptPayload]
    rw [hrow i]
  have hTrust : ∀ j : Fin nT,
      (TrusteeGetContribution q e
        ((List.finRange nC).map (fun i => pads i j))).1
        = marshalBinary q (∑ i, hashInGroup q (pads i j)) := by
    intro j
    simp [TrusteeGetContribution]
    rw [hcol j]
  have hkey : relayKey q e
      ((List.finRange nT).map (fun j =>
        (TrusteeGetContribution q e
          ((List.finRange nC).map (fun i => pads i j))).1))
      ((List.finRange nC).map (fun i =>
        if i = owner then
          (ClientEncryptPayload q A e true x
            ((List.finRange nT).map (fun j => pads owner j))).1.2
        else
          (ClientEncryptPayload q A e false (xs i)
            ((List.finRange nT).map (fun j => pads i j))).1.2))
      = e.randomness e.randCtr := by
    unfold relayKey
    simp only [hTrust, hNon, hOwner2]
    have hift : ∀ i : Fin nC,
        (if i = owner then
          marshalBinary q (e.randomness e.randCtr
            + (∑ j, hashInGroup q (pads owner j)) * e.history)
        else
          marshalBinary q ((∑ j, hashInGroup q (pads i j)) * e.history))
          = marshalBinary q (if i = owner then
              e.randomness e.randCtr
                + (∑ j, hashInGroup q (pads owner j)) * e.history
            else (∑ j, hashInGroup q (pads i j)) * e.history) := by
      intro i
      exact (apply_ite (marshalBinary q) _ _ _).symm
    simp only [hift]
    rw [List.map_map, List.map_map]
    simp only [Function.comp_def, setBytes_marshalBinary]
    simp only [foldl_add_map_finRange]
    exact honest_key_algebra q nC nT (fun i j => hashInGroup q (pads i j))
      e.history (e.randomness e.randCtr) owner
  simp only [RelayDecode]
  rw [hkey]
  rw [if_neg (marshalBinary_ne_nil q (e.randomness e.randCtr))]
  rw [hOwner1]
  rw [hA]

/-- Concrete honest-round pad matrix for one client and one trustee. -/
def onePad : Fin 1 → Fin 1 → List ℕ := fun _ _ => [2]

theorem RelayDecode_honest_round_witness :
    (∀ k n m, idAEAD.aeOpen k n (idAEAD.aeSeal k n m) = some m) ∧
      (RelayDecode 3 idAEAD (zeroState 3)
        (ClientEncryptPayload 3 idAEAD (zeroState 3) true [7]
          ((List.finRange 1).map (fun j => onePad 0 j))).1.1
        ((List.finRange 1).map (fun j =>
          (TrusteeGetContribution 3 (zeroState 3)
            ((List.finRange 1).map (fun i => onePad i j))).1))
        ((List.finRange 1).map (fun i =>
          if i = 0 then
            (ClientEncryptPayload 3 idAEAD (zeroState 3) true [7]
              ((List.finRange 1).map (fun j => onePad 0 j))).1.2
          else
            (ClientEncryptPayload 3 idAEAD (zeroState 3) false []
              ((List.finRange 1).map (fun j => onePad i j))).1.2))).1 = [7] :=
  ⟨fun _ _ _ => rfl,
   RelayDecode_honest_round 3 idAEAD (fun _ _ _ => rfl) (zeroState 3) 1 1
     onePad 0 [7] (fun _ => [])⟩

end PriFi
